import Mathlib

/-!
Verification of `allensdk/model/glif/rc.py`: passive RC-circuit parameter
fitting (resistance R, capacitance C, resting potential El) from voltage and
current sweeps via least squares.

The embedding works over exact rationals (ℚ).  Numpy arrays become `List ℚ`.
`np.linalg.lstsq` on a full-column-rank design matrix returns the unique
solution of the normal equations; the embedding computes that solution by
Cramer's rule on the (3×3 or 2×2) normal system, with an arbitrary fallback
value `0` on the rank-deficient branch (numpy would return the minimum-norm
solution there; no theorem below evaluates that branch).

Error behaviour is modelled with `Except RcErr`: numpy raises when a
convolution input is empty (`np.convolve` rejects an empty signal or kernel),
and the smoothing batch fit raises `NameError` when the sweep batch is empty
(the Python loop variables `R, C, El` are then unbound at `return`).
-/

set_option maxHeartbeats 1000000
set_option linter.unusedVariables false

namespace RcFit

/-- Failure modes of the embedded code.  The first three are the error exits
the Python/numpy code actually has: `emptyKernel`/`emptySignal` stand for the
error `np.convolve` raises when handed an empty kernel resp. signal, and
`noSweeps` stands for the `NameError` raised by
`least_squares_simple_circuit_with_smoothing_fit_RCEl` when it returns unbound
loop variables on an empty batch.  `degenerateWidth` is modelled from the
spec: the descriptive degenerate-filter-width error that §7 of the spec
demands; the source contains no check that produces it. -/
inductive RcErr where
  | emptyKernel : RcErr
  | emptySignal : RcErr
  | noSweeps : RcErr
  | degenerateWidth : RcErr
deriving DecidableEq

/-- `true` iff an `Except` computation succeeded. -/
def exceptOk {ε α : Type} : Except ε α → Bool
  | .ok _ => true
  | .error _ => false

/-- Dot product of two rational sequences (truncating to the shorter). -/
def dot (a b : List ℚ) : ℚ := (List.zipWith (· * ·) a b).sum

/-- Zero-padded indexing: `a[z]` for an integer index, `0` outside range.
This is the padding `np.convolve` applies at the boundaries. -/
def padGet (a : List ℚ) (z : ℤ) : ℚ := if 0 ≤ z then a.getD z.toNat 0 else 0

/-- Full discrete convolution, `np.convolve(a, k, 'full')`:
entry `s` is `Σ_t k[t]·a[s−t]` with zero padding, `s < |a|+|k|−1`. -/
def convFull (a k : List ℚ) : List ℚ :=
  (List.range (a.length + k.length - 1)).map fun (s : ℕ) =>
    ((List.range k.length).map fun (t : ℕ) =>
      k.getD t 0 * padGet a ((s : ℤ) - (t : ℤ))).sum

/-- `np.convolve(a, k, 'same')`: the centred slice of the full convolution,
of length `max |a| |k|`, starting at offset `(min |a| |k| − 1)/2`. -/
def convSame (a k : List ℚ) : List ℚ :=
  ((convFull a k).drop ((min a.length k.length - 1) / 2)).take (max a.length k.length)

/-- Round-half-to-even to the nearest integer (Python `round`). -/
def roundHalfEven (q : ℚ) : ℤ :=
  if Int.fract q = 1/2 then (if Even ⌊q⌋ then ⌊q⌋ else ⌊q⌋ + 1) else round q

/-- The filter width in samples: the code computes
`np.ones((round(filter_size_s/dt, 1)))`, i.e. Python's round-half-to-even at
the 0.1 digit followed by numpy's conversion of the float shape to an integer
(truncation toward zero; the ratio is nonnegative in use). -/
def filter_width (filter_size_s dt : ℚ) : ℕ :=
  (⌊(roundHalfEven (10 * (filter_size_s / dt)) : ℚ) / 10⌋).toNat

/-- The box filter `sq_filt`: `w` uniform weights `1/w`. -/
def boxKernel (w : ℕ) : List ℚ := List.replicate w (1 / (w : ℚ))

/-- Entry `j` of the `'same'`-mode box filter of width `w` applied to `a`:
the zero-padded window sum around `j` (centred with left bias for even `w`,
numpy's convention), divided by `w`. -/
def boxZ (a : List ℚ) (w : ℕ) (j : ℕ) : ℚ :=
  ((List.range w).map fun (t : ℕ) =>
    padGet a ((j : ℤ) + (((w - 1) / 2 : ℕ) : ℤ) - (t : ℤ))).sum / (w : ℚ)

/-- `smooth(voltage, current, filter_size_s, dt)` from the source: truncate
`current` and `voltage` to `len(voltage)-1` samples, shift `voltage` by one,
box-filter all three with `'same'`-mode convolution, and return
`(sm_v, sm_i, (sm_vs - sm_v)/dt)`.  Error exits: an empty kernel (width
rounded to 0) or an empty truncated signal makes `np.convolve` raise. -/
def smooth (voltage current : List ℚ) (filter_size_s dt : ℚ) :
    Except RcErr (List ℚ × List ℚ × List ℚ) :=
  let w := filter_width filter_size_s dt
  let i := current.take (voltage.length - 1)
  let v := voltage.take (voltage.length - 1)
  let vs := voltage.drop 1
  if w = 0 then .error .emptyKernel
  else if v.length = 0 then .error .emptySignal
  else if i.length = 0 then .error .emptySignal
  else
    let sm_v := convSame v (boxKernel w)
    let sm_vs := convSame vs (boxKernel w)
    let sm_i := convSame i (boxKernel w)
    .ok (sm_v, sm_i, List.zipWith (fun a b => (a - b) / dt) sm_vs sm_v)

/-- Column `j` of a row-major matrix (out-of-range entries read as `0`). -/
def col (rows : List (List ℚ)) (j : ℕ) : List ℚ := rows.map fun r => r.getD j 0

/-- Entry `(j,k)` of the normal matrix `AᵀA` of the design matrix `rows`. -/
def nDot (rows : List (List ℚ)) (j k : ℕ) : ℚ := dot (col rows j) (col rows k)

/-- Entry `j` of the normal right-hand side `Aᵀy`. -/
def bDot (rows : List (List ℚ)) (y : List ℚ) (j : ℕ) : ℚ := dot (col rows j) y

/-- Determinant of the 3×3 normal matrix of a 3-column design matrix. -/
def lstsqDet3 (rows : List (List ℚ)) : ℚ :=
  nDot rows 0 0 * (nDot rows 1 1 * nDot rows 2 2 - nDot rows 1 2 * nDot rows 1 2)
    - nDot rows 0 1 * (nDot rows 0 1 * nDot rows 2 2 - nDot rows 1 2 * nDot rows 0 2)
    + nDot rows 0 2 * (nDot rows 0 1 * nDot rows 1 2 - nDot rows 1 1 * nDot rows 0 2)

/-- `np.linalg.lstsq` on a 3-column design matrix: the unique solution of the
normal equations `AᵀA x = Aᵀ y` when `AᵀA` is invertible, computed by
Cramer's rule.  The `(0,0,0)` branch stands in for the rank-deficient case
(numpy: minimum-norm solution), which no theorem evaluates. -/
def lstsq3 (rows : List (List ℚ)) (y : List ℚ) : ℚ × ℚ × ℚ :=
  let A := nDot rows 0 0
  let B := nDot rows 0 1
  let Cc := nDot rows 0 2
  let D := nDot rows 1 1
  let E := nDot rows 1 2
  let F := nDot rows 2 2
  let p := bDot rows y 0
  let q := bDot rows y 1
  let r := bDot rows y 2
  let d := lstsqDet3 rows
  if d = 0 then (0, 0, 0)
  else
    ((p * (D * F - E * E) - B * (q * F - E * r) + Cc * (q * E - D * r)) / d,
     (A * (q * F - E * r) - p * (B * F - E * Cc) + Cc * (B * r - q * Cc)) / d,
     (A * (D * r - q * E) - B * (B * r - q * Cc) + p * (B * E - D * Cc)) / d)

/-- Determinant of the 2×2 normal matrix of a 2-column design matrix. -/
def lstsqDet2 (rows : List (List ℚ)) : ℚ :=
  nDot rows 0 0 * nDot rows 1 1 - nDot rows 0 1 * nDot rows 0 1

/-- `np.linalg.lstsq` on a 2-column design matrix, as in `lstsq3`. -/
def lstsq2 (rows : List (List ℚ)) (y : List ℚ) : ℚ × ℚ :=
  let A := nDot rows 0 0
  let B := nDot rows 0 1
  let D := nDot rows 1 1
  let p := bDot rows y 0
  let q := bDot rows y 1
  let d := lstsqDet2 rows
  if d = 0 then (0, 0)
  else ((p * D - B * q) / d, (A * q - B * p) / d)

/-- The design matrix of the 3-parameter fits:
`matrix = np.ones((n, 3)); matrix[:,0] = voltage; matrix[:,1] = current`,
i.e. rows `[v_k, i_k, 1]`.  The two columns have equal length wherever the
source builds this matrix under the data-model invariant (equal-length sweep
pairs); on a length mismatch numpy's column assignment would raise a
broadcast error, while `zipWith` truncates — every theorem below that
evaluates the fit assumes the invariant. -/
def designRCElMatrix (voltage current : List ℚ) : List (List ℚ) :=
  List.zipWith (fun a b => [a, b, (1 : ℚ)]) voltage current

/-- The design matrix of `least_squares_simple_circuit_fit_REl`:
`matrix = np.ones((n, 2)); matrix[:,0] = voltage`, i.e. rows `[v_k, 1]`. -/
def designRElMatrix (voltage : List ℚ) : List (List ℚ) :=
  voltage.map fun a => [a, (1 : ℚ)]

/-- The regression target of `least_squares_simple_circuit_fit_REl`:
`v_nplus1 - (current*dt)/Cap` with `v_nplus1 = voltage[1:]` and `current`
already truncated to `current[0:-1]`. -/
def targetREl (voltage current : List ℚ) (Cap dt : ℚ) : List ℚ :=
  List.zipWith (fun a b => a - b * dt / Cap) (voltage.drop 1) current.dropLast

/-- One sweep of `least_squares_simple_circuit_fit_RCEl`.  `stim` abstracts
the external collaborator `get_stim_characteristics` (it receives the current
trace and `dt`, and returns `(start_idx, end_idx)`); it is consulted only when
`no_rest` is true.  The external spike detector only emits a non-fatal log
warning in the source and never changes the result, so it is not modelled. -/
def fitRCElSweep (stim : List ℚ → ℚ → ℕ × ℕ) (voltage current : List ℚ)
    (dt : ℚ) (no_rest : Bool) : ℚ × ℚ × ℚ :=
  let vc :=
    if no_rest then
      let se := stim current dt
      ((voltage.drop se.1).take (se.2 - se.1), (current.drop se.1).take (se.2 - se.1))
    else (voltage, current)
  let v_nplus1 := vc.1.drop 1
  let va := vc.1.dropLast
  let ia := vc.2.dropLast
  let out := lstsq3 (designRCElMatrix va ia) v_nplus1
  let capacitance := dt / out.2.1
  let resistance := dt / (capacitance * (1 - out.1))
  let El := capacitance * resistance * out.2.2 / dt
  (resistance, capacitance, El)

/-- `least_squares_simple_circuit_fit_RCEl`: zip the sweep batches, fit each
pair, and return the three parallel per-sweep lists
`(resistance_list, capacitance_list, El_list)`. -/
def least_squares_simple_circuit_fit_RCEl (stim : List ℚ → ℚ → ℕ × ℕ)
    (voltage_list current_list : List (List ℚ)) (dt : ℚ) (no_rest : Bool) :
    List ℚ × List ℚ × List ℚ :=
  let fits := (voltage_list.zip current_list).map fun p =>
    fitRCElSweep stim p.1 p.2 dt no_rest
  (fits.map fun t => t.1, fits.map fun t => t.2.1, fits.map fun t => t.2.2)

/-- One sweep of `least_squares_simple_circuit_fit_REl` (capacitance given). -/
def fitRElSweep (voltage current : List ℚ) (Cap dt : ℚ) : ℚ × ℚ :=
  let va := voltage.dropLast
  let out := lstsq2 (designRElMatrix va) (targetREl voltage current Cap dt)
  let resistance := dt / (Cap * (1 - out.1))
  let El := Cap * resistance * out.2 / dt
  (resistance, El)

/-- `least_squares_simple_circuit_fit_REl`: per-sweep `(R, El)` lists. -/
def least_squares_simple_circuit_fit_REl (voltage_list current_list : List (List ℚ))
    (Cap dt : ℚ) : List ℚ × List ℚ :=
  let fits := (voltage_list.zip current_list).map fun p =>
    fitRElSweep p.1 p.2 Cap dt
  (fits.map fun t => t.1, fits.map fun t => t.2)

/-- One sweep of the smoothed fit: smooth, then regress the smoothed dV/dt on
`[sm_v, sm_i, 1]` and invert `C = 1/a1`, `R = -1/(C·a0)`, `El = C·R·a2`. -/
def fitSmoothSweep (voltage current : List ℚ) (filter_size dt : ℚ) :
    Except RcErr (ℚ × ℚ × ℚ) :=
  match smooth voltage current filter_size dt with
  | .error e => .error e
  | .ok t =>
    let out := lstsq3 (designRCElMatrix t.1 t.2.1) t.2.2
    let Cv := 1 / out.2.1
    let Rv := -1 / (Cv * out.1)
    let El := Cv * Rv * out.2.2
    .ok (Rv, Cv, El)

/-- Run the per-sweep fits in order, collecting the per-sweep triples (the
`r_list`/`c_list`/`El_list` accumulators of the source); the first failing
sweep propagates its error, as the Python exception would. -/
def runSweeps {α : Type} (g : α → Except RcErr (ℚ × ℚ × ℚ)) :
    List α → Except RcErr (List (ℚ × ℚ × ℚ))
  | [] => .ok []
  | a :: l =>
    match g a, runSweeps g l with
    | .error e, _ => .error e
    | .ok _, .error e => .error e
    | .ok b, .ok bs => .ok (b :: bs)

/-- `least_squares_simple_circuit_with_smoothing_fit_RCEl`: iterates the
zipped sweep batch, accumulating per-sweep lists, but its `return R, C, El`
yields only the loop variables left over from the final iteration — i.e. the
LAST sweep's triple.  On an empty batch those variables are unbound and
Python raises `NameError` (`noSweeps`).  The `no_rest` parameter is accepted
and never read. -/
def least_squares_simple_circuit_with_smoothing_fit_RCEl
    (voltage_list current_list : List (List ℚ)) (dt filter_size : ℚ)
    (no_rest : Bool) : Except RcErr (ℚ × ℚ × ℚ) :=
  match runSweeps (fun p => fitSmoothSweep p.1 p.2 filter_size dt)
      (voltage_list.zip current_list) with
  | .error e => .error e
  | .ok rs =>
    match rs.getLast? with
    | some t => .ok t
    | none => .error .noSweeps

/-! ### Dot-product and column lemmas -/

theorem dot_nil_left (b : List ℚ) : dot [] b = 0 := by
  cases b <;> simp [dot]

theorem dot_cons (a b : ℚ) (u v : List ℚ) : dot (a :: u) (b :: v) = a * b + dot u v := by
  simp [dot]

theorem dot_comm (u : List ℚ) : ∀ v : List ℚ, dot u v = dot v u := by
  induction u with
  | nil => intro v; cases v <;> simp [dot]
  | cons a u ih =>
    intro v
    cases v with
    | nil => simp [dot]
    | cons b v => rw [dot_cons, dot_cons, ih, mul_comm]

theorem dot_replicate_one (u : List ℚ) : dot u (List.replicate u.length 1) = u.sum := by
  induction u with
  | nil => simp [dot]
  | cons a u ih => simpa [List.replicate, dot_cons] using ih

theorem sum_replicate_one (m : ℕ) : (List.replicate m (1 : ℚ)).sum = m := by
  induction m with
  | zero => simp
  | succ m ih => simp [List.replicate, ih]; ring

/-- Dot product against a pointwise affine combination of two columns. -/
theorem dot_affine (c0 c1 c2 : ℚ) :
    ∀ u x1 x2 : List ℚ, u.length = x1.length → x1.length = x2.length →
      dot u (List.zipWith (fun a b => c0 * a + c1 * b + c2) x1 x2) =
        c0 * dot u x1 + c1 * dot u x2 + c2 * u.sum := by
  intro u
  induction u with
  | nil =>
    intro x1 x2 _ _
    simp [dot_nil_left]
  | cons a u ih =>
    intro x1 x2 h1 h2
    cases x1 with
    | nil => simp at h1
    | cons p x1 =>
      cases x2 with
      | nil => simp at h2
      | cons q x2 =>
        simp only [List.length_cons, Nat.succ_inj] at h1 h2
        simp only [List.zipWith_cons_cons, dot_cons, List.sum_cons]
        rw [ih x1 x2 h1 h2]
        ring

/-- Dot product against a pointwise affine image of one column. -/
theorem dot_affine1 (c0 c1 : ℚ) :
    ∀ u x : List ℚ, u.length = x.length →
      dot u (x.map fun a => c0 * a + c1) = c0 * dot u x + c1 * u.sum := by
  intro u
  induction u with
  | nil =>
    intro x _
    simp [dot_nil_left]
  | cons a u ih =>
    intro x h
    cases x with
    | nil => simp at h
    | cons p x =>
      simp only [List.length_cons, Nat.succ_inj] at h
      simp only [List.map_cons, dot_cons, List.sum_cons]
      rw [ih x h]
      ring

theorem col_designRCEl_zero :
    ∀ va ia : List ℚ, ia.length = va.length → col (designRCElMatrix va ia) 0 = va := by
  intro va
  induction va with
  | nil => intro ia _; simp [designRCElMatrix, col]
  | cons a va ih =>
    intro ia h
    cases ia with
    | nil => simp at h
    | cons b ia =>
      simp only [List.length_cons, Nat.succ_inj] at h
      simp only [designRCElMatrix, List.zipWith_cons_cons, col, List.map_cons] at *
      exact congrArg (a :: ·) (ih ia h)

theorem col_designRCEl_one :
    ∀ va ia : List ℚ, ia.length = va.length → col (designRCElMatrix va ia) 1 = ia := by
  intro va
  induction va with
  | nil =>
    intro ia h
    cases ia with
    | nil => simp [designRCElMatrix, col]
    | cons b ia => simp at h
  | cons a va ih =>
    intro ia h
    cases ia with
    | nil => simp at h
    | cons b ia =>
      simp only [List.length_cons, Nat.succ_inj] at h
      simp only [designRCElMatrix, List.zipWith_cons_cons, col, List.map_cons] at *
      exact congrArg (b :: ·) (ih ia h)

theorem col_designRCEl_two :
    ∀ va ia : List ℚ, ia.length = va.length →
      col (designRCElMatrix va ia) 2 = List.replicate va.length 1 := by
  intro va
  induction va with
  | nil => intro ia _; simp [designRCElMatrix, col]
  | cons a va ih =>
    intro ia h
    cases ia with
    | nil => simp at h
    | cons b ia =>
      simp only [List.length_cons, Nat.succ_inj] at h
      simp only [designRCElMatrix, List.zipWith_cons_cons, col, List.map_cons,
        List.length_cons, List.replicate] at *
      exact congrArg (1 :: ·) (ih ia h)

/-- Cramer's rule on a symmetric 3×3 system: when the right-hand side is the
matrix applied to `(c0, c1, c2)` and the determinant is nonzero, the Cramer
quotients recover `(c0, c1, c2)`. -/
theorem cramer3_solves (A B Cc D E F p q r c0 c1 c2 : ℚ)
    (hp : p = c0 * A + c1 * B + c2 * Cc)
    (hq : q = c0 * B + c1 * D + c2 * E)
    (hr : r = c0 * Cc + c1 * E + c2 * F)
    (hd : A * (D * F - E * E) - B * (B * F - E * Cc) + Cc * (B * E - D * Cc) ≠ 0) :
    (p * (D * F - E * E) - B * (q * F - E * r) + Cc * (q * E - D * r)) /
        (A * (D * F - E * E) - B * (B * F - E * Cc) + Cc * (B * E - D * Cc)) = c0 ∧
    (A * (q * F - E * r) - p * (B * F - E * Cc) + Cc * (B * r - q * Cc)) /
        (A * (D * F - E * E) - B * (B * F - E * Cc) + Cc * (B * E - D * Cc)) = c1 ∧
    (A * (D * r - q * E) - B * (B * r - q * Cc) + p * (B * E - D * Cc)) /
        (A * (D * F - E * E) - B * (B * F - E * Cc) + Cc * (B * E - D * Cc)) = c2 := by
  subst hp hq hr
  refine ⟨?_, ?_, ?_⟩
  · rw [show (c0 * A + c1 * B + c2 * Cc) * (D * F - E * E) -
        B * ((c0 * B + c1 * D + c2 * E) * F - E * (c0 * Cc + c1 * E + c2 * F)) +
        Cc * ((c0 * B + c1 * D + c2 * E) * E - D * (c0 * Cc + c1 * E + c2 * F)) =
        c0 * (A * (D * F - E * E) - B * (B * F - E * Cc) + Cc * (B * E - D * Cc)) from by ring]
    rw [mul_div_assoc, div_self hd, mul_one]
  · rw [show A * ((c0 * B + c1 * D + c2 * E) * F - E * (c0 * Cc + c1 * E + c2 * F)) -
        (c0 * A + c1 * B + c2 * Cc) * (B * F - E * Cc) +
        Cc * (B * (c0 * Cc + c1 * E + c2 * F) - (c0 * B + c1 * D + c2 * E) * Cc) =
        c1 * (A * (D * F - E * E) - B * (B * F - E * Cc) + Cc * (B * E - D * Cc)) from by ring]
    rw [mul_div_assoc, div_self hd, mul_one]
  · rw [show A * (D * (c0 * Cc + c1 * E + c2 * F) - (c0 * B + c1 * D + c2 * E) * E) -
        B * (B * (c0 * Cc + c1 * E + c2 * F) - (c0 * B + c1 * D + c2 * E) * Cc) +
        (c0 * A + c1 * B + c2 * Cc) * (B * E - D * Cc) =
        c2 * (A * (D * F - E * E) - B * (B * F - E * Cc) + Cc * (B * E - D * Cc)) from by ring]
    rw [mul_div_assoc, div_self hd, mul_one]

/-- Exactness of the embedded 3-column least squares: when the target is
exactly the affine combination `c0·va + c1·ia + c2` of the two data columns
and the normal system is nonsingular, `lstsq3` returns `(c0, c1, c2)`. -/
theorem lstsq3_exact (va ia y : List ℚ) (c0 c1 c2 : ℚ)
    (h1 : ia.length = va.length)
    (hy : y = List.zipWith (fun a b => c0 * a + c1 * b + c2) va ia)
    (hd : lstsqDet3 (designRCElMatrix va ia) ≠ 0) :
    lstsq3 (designRCElMatrix va ia) y = (c0, c1, c2) := by
  have hc0 := col_designRCEl_zero va ia h1
  have hc1 := col_designRCEl_one va ia h1
  have hc2 := col_designRCEl_two va ia h1
  have e1 : dot ia (List.replicate va.length 1) = ia.sum := by
    rw [← h1]; exact dot_replicate_one ia
  have e2 : dot va (List.replicate va.length 1) = va.sum := dot_replicate_one va
  have e3 : dot (List.replicate va.length 1) va = va.sum := by rw [dot_comm]; exact e2
  have e4 : dot (List.replicate va.length 1) ia = ia.sum := by rw [dot_comm]; exact e1
  have e5 : dot (List.replicate va.length (1:ℚ)) (List.replicate va.length 1) =
      (va.length : ℚ) := by
    have h := dot_replicate_one (List.replicate va.length (1:ℚ))
    simpa [sum_replicate_one] using h
  have hb0 : bDot (designRCElMatrix va ia) y 0 =
      c0 * nDot (designRCElMatrix va ia) 0 0 + c1 * nDot (designRCElMatrix va ia) 0 1 +
        c2 * nDot (designRCElMatrix va ia) 0 2 := by
    rw [bDot, nDot, nDot, nDot, hc0, hc1, hc2, hy,
      dot_affine c0 c1 c2 va va ia rfl h1.symm, e2]
  have hb1 : bDot (designRCElMatrix va ia) y 1 =
      c0 * nDot (designRCElMatrix va ia) 0 1 + c1 * nDot (designRCElMatrix va ia) 1 1 +
        c2 * nDot (designRCElMatrix va ia) 1 2 := by
    rw [bDot, nDot, nDot, nDot, hc0, hc1, hc2, hy,
      dot_affine c0 c1 c2 ia va ia h1 h1.symm, e1, dot_comm ia va]
  have hb2 : bDot (designRCElMatrix va ia) y 2 =
      c0 * nDot (designRCElMatrix va ia) 0 2 + c1 * nDot (designRCElMatrix va ia) 1 2 +
        c2 * nDot (designRCElMatrix va ia) 2 2 := by
    rw [bDot, nDot, nDot, nDot, hc0, hc1, hc2, hy]
    rw [dot_affine c0 c1 c2 (List.replicate va.length 1) va ia (by simp) h1.symm]
    rw [e3, e4, e5, sum_replicate_one, e2, e1]
  have hdet : lstsqDet3 (designRCElMatrix va ia) =
      nDot (designRCElMatrix va ia) 0 0 *
        (nDot (designRCElMatrix va ia) 1 1 * nDot (designRCElMatrix va ia) 2 2 -
          nDot (designRCElMatrix va ia) 1 2 * nDot (designRCElMatrix va ia) 1 2) -
      nDot (designRCElMatrix va ia) 0 1 *
        (nDot (designRCElMatrix va ia) 0 1 * nDot (designRCElMatrix va ia) 2 2 -
          nDot (designRCElMatrix va ia) 1 2 * nDot (designRCElMatrix va ia) 0 2) +
      nDot (designRCElMatrix va ia) 0 2 *
        (nDot (designRCElMatrix va ia) 0 1 * nDot (designRCElMatrix va ia) 1 2 -
          nDot (designRCElMatrix va ia) 1 1 * nDot (designRCElMatrix va ia) 0 2) := rfl
  have hcr := cramer3_solves (nDot (designRCElMatrix va ia) 0 0)
    (nDot (designRCElMatrix va ia) 0 1) (nDot (designRCElMatrix va ia) 0 2)
    (nDot (designRCElMatrix va ia) 1 1) (nDot (designRCElMatrix va ia) 1 2)
    (nDot (designRCElMatrix va ia) 2 2) (bDot (designRCElMatrix va ia) y 0)
    (bDot (designRCElMatrix va ia) y 1) (bDot (designRCElMatrix va ia) y 2)
    c0 c1 c2 hb0 hb1 hb2 (by rw [← hdet]; exact hd)
  simp only [lstsq3, ← hdet]
  rw [if_neg hd]
  exact Prod.ext hcr.1 (Prod.ext hcr.2.1 hcr.2.2)

/-- The one-step-ahead target of the unsmoothed fit is exactly affine in the
truncated voltage and current columns when the voltage is a forward-Euler
trace of the RC model. -/
theorem euler_target_affine (R C El dt : ℚ) (v i : List ℚ)
    (hRne : R ≠ 0) (hCne : C ≠ 0) (hlen : i.length = v.length)
    (heuler : ∀ k, k + 1 < v.length →
      v.getD (k + 1) 0 = v.getD k 0 + dt * (-(v.getD k 0 - El) + R * i.getD k 0) / (R * C)) :
    v.drop 1 = List.zipWith
      (fun a b => (1 - dt / (R * C)) * a + (dt / C) * b + El * dt / (R * C))
      v.dropLast i.dropLast := by
  apply List.ext_getElem
  · simp [hlen]
  · intro n h1 h2
    have hn1 : n + 1 < v.length := by
      have := h1
      simp only [List.length_drop] at this
      omega
    have hnv : n < v.length := by omega
    have hni : n < i.length := by omega
    have hnva : n < v.dropLast.length := by simp; omega
    have hnia : n < i.dropLast.length := by simp [hlen]; omega
    rw [List.getElem_drop, List.getElem_zipWith, List.getElem_dropLast, List.getElem_dropLast]
    have h := heuler n hn1
    rw [List.getD_eq_getElem v 0 hn1, List.getD_eq_getElem v 0 hnv,
      List.getD_eq_getElem i 0 hni] at h
    simp only [Nat.add_comm 1 n]
    rw [h]
    field_simp
    ring

/-- Exact parameter recovery for one sweep of the unsmoothed 3-parameter fit
on noiseless forward-Euler data with a full-rank design matrix. -/
theorem fitRCEl_sweep_exact (stim : List ℚ → ℚ → ℕ × ℕ) (R C El dt : ℚ)
    (v i : List ℚ) (hR : 0 < R) (hC : 0 < C) (hdt : 0 < dt)
    (hlen : i.length = v.length)
    (heuler : ∀ k, k + 1 < v.length →
      v.getD (k + 1) 0 = v.getD k 0 + dt * (-(v.getD k 0 - El) + R * i.getD k 0) / (R * C))
    (hrank : lstsqDet3 (designRCElMatrix v.dropLast i.dropLast) ≠ 0) :
    fitRCElSweep stim v i dt false = (R, C, El) := by
  have hRne : R ≠ 0 := ne_of_gt hR
  have hCne : C ≠ 0 := ne_of_gt hC
  have hdtne : dt ≠ 0 := ne_of_gt hdt
  have hRC : R * C ≠ 0 := mul_ne_zero hRne hCne
  have hlen' : i.dropLast.length = v.dropLast.length := by simp [hlen]
  have hy := euler_target_affine R C El dt v i hRne hCne hlen heuler
  have hout := lstsq3_exact v.dropLast i.dropLast (v.drop 1)
    (1 - dt / (R * C)) (dt / C) (El * dt / (R * C)) hlen' hy hrank
  simp only [fitRCElSweep, Bool.false_eq_true, if_false, hout]
  refine Prod.ext ?_ (Prod.ext ?_ ?_)
  · show dt / (dt / (dt / C) * (1 - (1 - dt / (R * C)))) = R
    field_simp
    ring
  · show dt / (dt / C) = C
    field_simp
  · show dt / (dt / C) * (dt / (dt / (dt / C) * (1 - (1 - dt / (R * C))))) *
      (El * dt / (R * C)) / dt = El
    field_simp
    ring

/-! ### Claim C1 -/

/-- C1: for a sweep whose voltage series is generated by forward-Euler
integration of the RC model `dV/dt = (-(V-El) + R·I)/(R·C)` at step `dt` with
positive `R`, `C` and positive step, equal-length series, and a design matrix
making the normal system nonsingular (full column rank), the unsmoothed fit
`least_squares_simple_circuit_fit_RCEl` with `no_rest = false` recovers
exactly `R`, `C` and `El` for that sweep (exact rational arithmetic). -/
theorem claim_C1_rcel_exact_recovery (stim : List ℚ → ℚ → ℕ × ℕ)
    (R C El dt : ℚ) (v i : List ℚ) (hR : 0 < R) (hC : 0 < C) (hdt : 0 < dt)
    (hlen : i.length = v.length)
    (heuler : ∀ k, k + 1 < v.length →
      v.getD (k + 1) 0 = v.getD k 0 + dt * (-(v.getD k 0 - El) + R * i.getD k 0) / (R * C))
    (hrank : lstsqDet3 (designRCElMatrix v.dropLast i.dropLast) ≠ 0) :
    least_squares_simple_circuit_fit_RCEl stim [v] [i] dt false = ([R], [C], [El]) := by
  have h := fitRCEl_sweep_exact stim R C El dt v i hR hC hdt hlen heuler hrank
  simp only [least_squares_simple_circuit_fit_RCEl, List.zip_cons_cons, List.zip_nil_right,
    List.map_cons, List.map_nil, h]

/-- Witness for C1: `R = 1`, `C = 1`, `El = 0`, `dt = 1`, current
`[1, 2, 5, 0]`, Euler trace `[0, 1, 2, 5]`; the fit returns `([1],[1],[0])`. -/
theorem claim_C1_rcel_exact_recovery_witness :
    least_squares_simple_circuit_fit_RCEl (fun _ _ => (0, 0))
      [[0, 1, 2, 5]] [[1, 2, 5, 0]] 1 false = ([1], [1], [0]) := by
  refine claim_C1_rcel_exact_recovery (fun _ _ => (0, 0)) 1 1 0 1 [0, 1, 2, 5] [1, 2, 5, 0]
    (by norm_num) (by norm_num) (by norm_num) (by rfl) ?_ ?_
  · intro k hk
    have hk3 : k < 3 := by simp at hk; omega
    interval_cases k <;>
      norm_num [List.getD_cons_succ, List.getD_cons_zero]
  · norm_num [lstsqDet3, nDot, col, dot, designRCElMatrix]

/-! ### Claim C2: the smoothed fit returns only the last sweep's triple -/

/-- When every per-sweep fit succeeds, `runSweeps` succeeds with one triple
per sweep, and the last collected triple is the fit of the last sweep. -/
theorem runSweeps_ok_getLast {α : Type} (g : α → Except RcErr (ℚ × ℚ × ℚ)) :
    ∀ l : List α, (∀ p ∈ l, exceptOk (g p) = true) →
      ∃ bs : List (ℚ × ℚ × ℚ), runSweeps g l = .ok bs ∧ bs.length = l.length ∧
        ∀ a, l.getLast? = some a → bs.getLast? = (g a).toOption := by
  intro l
  induction l with
  | nil =>
    intro _
    exact ⟨[], rfl, rfl, by intro a ha; simp at ha⟩
  | cons p l ih =>
    intro h
    have hokp := h p (List.mem_cons_self p l)
    cases hg : g p with
    | error e => rw [hg] at hokp; simp [exceptOk] at hokp
    | ok b =>
      obtain ⟨bs, h1, h2, h3⟩ := ih fun q hq => h q (List.mem_cons_of_mem p hq)
      refine ⟨b :: bs, ?_, by simp [h2], ?_⟩
      · show runSweeps g (p :: l) = .ok (b :: bs)
        simp [runSweeps, hg, h1]
      · intro a ha
        cases l with
        | nil =>
          have hbs : bs = [] := List.length_eq_zero.mp (by simpa using h2)
          subst hbs
          simp only [List.getLast?_singleton, Option.some.injEq] at ha
          subst ha
          simp [hg, Except.toOption]
        | cons q l' =>
          have hbs : bs ≠ [] := by intro hc; rw [hc] at h2; simp at h2
          obtain ⟨c, bs', rfl⟩ := List.exists_cons_of_ne_nil hbs
          rw [List.getLast?_cons_cons] at ha ⊢
          exact h3 a ha

/-- C2: on a non-empty batch in which every sweep smooths and fits without
error, `least_squares_simple_circuit_with_smoothing_fit_RCEl` returns the
scalar triple `(R, C, El)` of the LAST zipped sweep only — not the
accumulated per-sweep lists it builds internally. -/
theorem claim_C2_smoothing_returns_last_sweep (vl il : List (List ℚ))
    (dt fs : ℚ) (nr : Bool) (hne : vl ≠ []) (hlen : vl.length = il.length)
    (hok : ∀ p ∈ vl.zip il, exceptOk (fitSmoothSweep p.1 p.2 fs dt) = true) :
    least_squares_simple_circuit_with_smoothing_fit_RCEl vl il dt fs nr =
      fitSmoothSweep ((vl.zip il).getLast?.getD ([], [])).1
        ((vl.zip il).getLast?.getD ([], [])).2 fs dt := by
  have hzlen : (vl.zip il).length = vl.length := by
    simp [List.length_zip, ← hlen]
  have hzne : vl.zip il ≠ [] := by
    intro hc
    apply hne
    rw [← List.length_eq_zero, ← hzlen, hc, List.length_nil]
  obtain ⟨a, ha⟩ : ∃ a, (vl.zip il).getLast? = some a :=
    ⟨(vl.zip il).getLast hzne, List.getLast?_eq_getLast_of_ne_nil hzne⟩
  obtain ⟨bs, h1, h2, h3⟩ := runSweeps_ok_getLast
    (fun p => fitSmoothSweep p.1 p.2 fs dt) (vl.zip il) hok
  have hmem : a ∈ vl.zip il := by
    obtain ⟨hne', rfl⟩ := List.mem_getLast?_eq_getLast (by rw [ha]; rfl)
    exact List.getLast_mem hne'
  have hoka := hok a hmem
  cases hg : fitSmoothSweep a.1 a.2 fs dt with
  | error e => rw [hg] at hoka; simp [exceptOk] at hoka
  | ok b =>
    have hlast := h3 a ha
    rw [hg] at hlast
    simp only [least_squares_simple_circuit_with_smoothing_fit_RCEl, h1, hlast, ha]
    simp [Except.toOption, hg]

/-- Witness for C2: two sweeps; the returned triple is the second sweep's. -/
theorem claim_C2_smoothing_returns_last_sweep_witness :
    least_squares_simple_circuit_with_smoothing_fit_RCEl
      [[0, 1, 2], [5, 6, 7]] [[1, 1, 1], [2, 2, 2]] 1 1 false =
      fitSmoothSweep (([[0, 1, 2], [5, 6, 7]].zip [[1, 1, 1], [2, 2, 2]]).getLast?.getD
          ([], [])).1
        (([[0, 1, 2], [5, 6, 7]].zip [[1, 1, 1], [2, 2, 2]]).getLast?.getD ([], [])).2
        1 1 := by
  refine claim_C2_smoothing_returns_last_sweep [[0, 1, 2], [5, 6, 7]]
    [[1, 1, 1], [2, 2, 2]] 1 1 false (by simp) (by rfl) ?_
  intro p hp
  simp only [List.zip_cons_cons, List.zip_nil_right, List.mem_cons,
    List.not_mem_nil, or_false] at hp
  rcases hp with h | h <;> subst h <;>
    norm_num [fitSmoothSweep, smooth, filter_width, roundHalfEven, Int.fract, round_eq, Int.toNat_ofNat,
      convSame, convFull, boxKernel, padGet, List.range_succ, exceptOk]

/-! ### Claim C9: `no_rest` is inert in the smoothed fit -/

/-- C9: two runs of `least_squares_simple_circuit_with_smoothing_fit_RCEl`
that differ only in `no_rest` return identical results: the parameter is
accepted but never read. -/
theorem claim_C9_no_rest_inert (vl il : List (List ℚ)) (dt fs : ℚ) (b1 b2 : Bool) :
    least_squares_simple_circuit_with_smoothing_fit_RCEl vl il dt fs b1 =
      least_squares_simple_circuit_with_smoothing_fit_RCEl vl il dt fs b2 := rfl

/-! ### Claim C10: mismatched batch sizes are zip-truncated silently -/

theorem zip_eq_zip_take_min {α β : Type} :
    ∀ (l1 : List α) (l2 : List β),
      l1.zip l2 = (l1.take (min l1.length l2.length)).zip (l2.take (min l1.length l2.length)) := by
  intro l1
  induction l1 with
  | nil => intro l2; simp
  | cons a t1 ih =>
    intro l2
    cases l2 with
    | nil => simp
    | cons b t2 =>
      simp only [List.length_cons, Nat.succ_min_succ, List.take_succ_cons,
        List.zip_cons_cons]
      rw [← ih t2]

/-- C10: with unequal numbers of sweeps, the three fitting functions process
only the first `min` sweep pairs: the per-sweep output lists of the two
list-returning fits have length `min`, and the smoothed fit computes the
same result as on the batches truncated to the first `min` sweeps — the
unpaired trailing sweeps are ignored without any error. -/
theorem claim_C10_zip_truncation (stim : List ℚ → ℚ → ℕ × ℕ)
    (vl il : List (List ℚ)) (dt fs Cap : ℚ) (nr : Bool) :
    ((least_squares_simple_circuit_fit_RCEl stim vl il dt nr).1.length =
        min vl.length il.length ∧
      (least_squares_simple_circuit_fit_RCEl stim vl il dt nr).2.1.length =
        min vl.length il.length ∧
      (least_squares_simple_circuit_fit_RCEl stim vl il dt nr).2.2.length =
        min vl.length il.length) ∧
    ((least_squares_simple_circuit_fit_REl vl il Cap dt).1.length =
        min vl.length il.length ∧
      (least_squares_simple_circuit_fit_REl vl il Cap dt).2.length =
        min vl.length il.length) ∧
    least_squares_simple_circuit_with_smoothing_fit_RCEl vl il dt fs nr =
      least_squares_simple_circuit_with_smoothing_fit_RCEl
        (vl.take (min vl.length il.length)) (il.take (min vl.length il.length)) dt fs nr := by
  refine ⟨⟨?_, ?_, ?_⟩, ⟨?_, ?_⟩, ?_⟩
  · simp [least_squares_simple_circuit_fit_RCEl, List.length_zip]
  · simp [least_squares_simple_circuit_fit_RCEl, List.length_zip]
  · simp [least_squares_simple_circuit_fit_RCEl, List.length_zip]
  · simp [least_squares_simple_circuit_fit_REl, List.length_zip]
  · simp [least_squares_simple_circuit_fit_REl, List.length_zip]
  · simp only [least_squares_simple_circuit_with_smoothing_fit_RCEl]
    rw [← zip_eq_zip_take_min]

/-! ### Claim C8: per-sweep output lists, input order preserved -/

theorem map_zip_getD {β : Type} [Inhabited β] (f : List ℚ × List ℚ → β) (z : β)
    (vl il : List (List ℚ)) (k : ℕ) (hn : vl.length = il.length) (hk : k < vl.length) :
    ((vl.zip il).map f).getD k z = f (vl.getD k [], il.getD k []) := by
  have hki : k < il.length := by omega
  have hkm : k < ((vl.zip il).map f).length := by
    simp [List.length_zip, ← hn, hk]
  rw [List.getD_eq_getElem _ _ hkm, List.getElem_map, List.getElem_zip,
    List.getD_eq_getElem _ _ hk, List.getD_eq_getElem _ _ hki]

/-- C8: with equally many sweeps in `voltage_list` and `current_list`, the
per-sweep output sequences of `least_squares_simple_circuit_fit_RCEl`
(resistance, capacitance, El) and of `least_squares_simple_circuit_fit_REl`
(resistance, El) all have length equal to the number of input sweeps, and
the `k`-th entry of each is computed from the `k`-th input sweep. -/
theorem claim_C8_lengths_and_order (stim : List ℚ → ℚ → ℕ × ℕ)
    (vl il : List (List ℚ)) (dt Cap : ℚ) (nr : Bool) (k : ℕ)
    (hn : vl.length = il.length) (hk : k < vl.length) :
    (least_squares_simple_circuit_fit_RCEl stim vl il dt nr).1.length = vl.length ∧
    (least_squares_simple_circuit_fit_RCEl stim vl il dt nr).2.1.length = vl.length ∧
    (least_squares_simple_circuit_fit_RCEl stim vl il dt nr).2.2.length = vl.length ∧
    (least_squares_simple_circuit_fit_REl vl il Cap dt).1.length = vl.length ∧
    (least_squares_simple_circuit_fit_REl vl il Cap dt).2.length = vl.length ∧
    (least_squares_simple_circuit_fit_RCEl stim vl il dt nr).1.getD k 0 =
      (fitRCElSweep stim (vl.getD k []) (il.getD k []) dt nr).1 ∧
    (least_squares_simple_circuit_fit_RCEl stim vl il dt nr).2.1.getD k 0 =
      (fitRCElSweep stim (vl.getD k []) (il.getD k []) dt nr).2.1 ∧
    (least_squares_simple_circuit_fit_RCEl stim vl il dt nr).2.2.getD k 0 =
      (fitRCElSweep stim (vl.getD k []) (il.getD k []) dt nr).2.2 ∧
    (least_squares_simple_circuit_fit_REl vl il Cap dt).1.getD k 0 =
      (fitRElSweep (vl.getD k []) (il.getD k []) Cap dt).1 ∧
    (least_squares_simple_circuit_fit_REl vl il Cap dt).2.getD k 0 =
      (fitRElSweep (vl.getD k []) (il.getD k []) Cap dt).2 := by
  refine ⟨?_, ?_, ?_, ?_, ?_, ?_, ?_, ?_, ?_, ?_⟩
  · simp [least_squares_simple_circuit_fit_RCEl, List.length_zip, ← hn]
  · simp [least_squares_simple_circuit_fit_RCEl, List.length_zip, ← hn]
  · simp [least_squares_simple_circuit_fit_RCEl, List.length_zip, ← hn]
  · simp [least_squares_simple_circuit_fit_REl, List.length_zip, ← hn]
  · simp [least_squares_simple_circuit_fit_REl, List.length_zip, ← hn]
  · simp only [least_squares_simple_circuit_fit_RCEl, List.map_map]
    simpa using map_zip_getD _ 0 vl il k hn hk
  · simp only [least_squares_simple_circuit_fit_RCEl, List.map_map]
    simpa using map_zip_getD _ 0 vl il k hn hk
  · simp only [least_squares_simple_circuit_fit_RCEl, List.map_map]
    simpa using map_zip_getD _ 0 vl il k hn hk
  · simp only [least_squares_simple_circuit_fit_REl, List.map_map]
    simpa using map_zip_getD _ 0 vl il k hn hk
  · simp only [least_squares_simple_circuit_fit_REl, List.map_map]
    simpa using map_zip_getD _ 0 vl il k hn hk

/-- Witness for C8 at a concrete two-sweep batch, entry `k = 1`. -/
theorem claim_C8_lengths_and_order_witness :
    (least_squares_simple_circuit_fit_RCEl (fun _ _ => (0, 0))
        [[0, 1], [2, 3]] [[1, 1], [1, 1]] 1 false).1.length = 2 ∧
    (least_squares_simple_circuit_fit_RCEl (fun _ _ => (0, 0))
        [[0, 1], [2, 3]] [[1, 1], [1, 1]] 1 false).2.1.length = 2 ∧
    (least_squares_simple_circuit_fit_RCEl (fun _ _ => (0, 0))
        [[0, 1], [2, 3]] [[1, 1], [1, 1]] 1 false).2.2.length = 2 ∧
    (least_squares_simple_circuit_fit_REl [[0, 1], [2, 3]] [[1, 1], [1, 1]] 1 1).1.length = 2 ∧
    (least_squares_simple_circuit_fit_REl [[0, 1], [2, 3]] [[1, 1], [1, 1]] 1 1).2.length = 2 ∧
    (least_squares_simple_circuit_fit_RCEl (fun _ _ => (0, 0))
        [[0, 1], [2, 3]] [[1, 1], [1, 1]] 1 false).1.getD 1 0 =
      (fitRCElSweep (fun _ _ => (0, 0)) ([[0, 1], [2, 3]].getD 1 [])
        ([[1, 1], [1, 1]].getD 1 []) 1 false).1 ∧
    (least_squares_simple_circuit_fit_RCEl (fun _ _ => (0, 0))
        [[0, 1], [2, 3]] [[1, 1], [1, 1]] 1 false).2.1.getD 1 0 =
      (fitRCElSweep (fun _ _ => (0, 0)) ([[0, 1], [2, 3]].getD 1 [])
        ([[1, 1], [1, 1]].getD 1 []) 1 false).2.1 ∧
    (least_squares_simple_circuit_fit_RCEl (fun _ _ => (0, 0))
        [[0, 1], [2, 3]] [[1, 1], [1, 1]] 1 false).2.2.getD 1 0 =
      (fitRCElSweep (fun _ _ => (0, 0)) ([[0, 1], [2, 3]].getD 1 [])
        ([[1, 1], [1, 1]].getD 1 []) 1 false).2.2 ∧
    (least_squares_simple_circuit_fit_REl [[0, 1], [2, 3]] [[1, 1], [1, 1]] 1 1).1.getD 1 0 =
      (fitRElSweep ([[0, 1], [2, 3]].getD 1 []) ([[1, 1], [1, 1]].getD 1 []) 1 1).1 ∧
    (least_squares_simple_circuit_fit_REl [[0, 1], [2, 3]] [[1, 1], [1, 1]] 1 1).2.getD 1 0 =
      (fitRElSweep ([[0, 1], [2, 3]].getD 1 []) ([[1, 1], [1, 1]].getD 1 []) 1 1).2 := by
  have h := claim_C8_lengths_and_order (fun _ _ => (0, 0))
    [[0, 1], [2, 3]] [[1, 1], [1, 1]] 1 1 false 1 (by rfl) (by norm_num)
  simpa using h

/-! ### Claim C3: structure of the REl design matrix -/

theorem designREl_cols : ∀ v' : List ℚ,
    (designRElMatrix v').map List.length = List.replicate v'.length 2 ∧
    (designRElMatrix v').map (fun r => r.getD 0 0) = v' ∧
    (designRElMatrix v').map (fun r => r.getD 1 0) = List.replicate v'.length 1 := by
  intro v'
  induction v' with
  | nil => simp [designRElMatrix]
  | cons a v' ih =>
    simp only [designRElMatrix, List.map_cons, List.length_cons, List.replicate] at *
    refine ⟨?_, ?_, ?_⟩
    · rw [ih.1]; norm_num
    · rw [ih.2.1]; rfl
    · rw [ih.2.2]; rfl

/-- Counterexample to C3 as stated: the design matrix that
`least_squares_simple_circuit_fit_REl` builds (`np.ones((n,2))` with column 0
overwritten by the voltage) has rows of length 2 — voltage plus an explicit
constant column — not exactly 1 column. -/
theorem claim_C3_counterexample :
    (designRElMatrix [(-7/100 : ℚ)]).map List.length = [2] ∧ (2 : ℕ) ≠ 1 := by
  constructor
  · simp [designRElMatrix]
  · decide

/-- C3 as amended: the REl design matrix has exactly 2 columns — column 0 the
truncated voltage and column 1 an explicit constant-one column — the
regression target is `v_{n+1} - current·dt/Cap`, and the coefficient used in
`El = Cap·R·c1/dt` is the coefficient of that explicit constant column (the
second solver output), not a solver-inferred implicit term. -/
theorem claim_C3_design_two_columns (v i : List ℚ) (Cap dt : ℚ) (k : ℕ)
    (hlen : i.length = v.length) (hk : k + 1 < v.length) :
    (designRElMatrix v.dropLast).map List.length = List.replicate v.dropLast.length 2 ∧
    (designRElMatrix v.dropLast).map (fun r => r.getD 0 0) = v.dropLast ∧
    (designRElMatrix v.dropLast).map (fun r => r.getD 1 0) =
      List.replicate v.dropLast.length 1 ∧
    (targetREl v i Cap dt).getD k 0 = v.getD (k + 1) 0 - i.getD k 0 * dt / Cap ∧
    fitRElSweep v i Cap dt =
      (dt / (Cap * (1 - (lstsq2 (designRElMatrix v.dropLast) (targetREl v i Cap dt)).1)),
       Cap * (dt / (Cap * (1 - (lstsq2 (designRElMatrix v.dropLast)
           (targetREl v i Cap dt)).1))) *
         (lstsq2 (designRElMatrix v.dropLast) (targetREl v i Cap dt)).2 / dt) := by
  obtain ⟨d1, d2, d3⟩ := designREl_cols v.dropLast
  refine ⟨d1, d2, d3, ?_, rfl⟩
  have hkv : k < v.length := by omega
  have hki : k < i.length := by omega
  have hkt : k < (targetREl v i Cap dt).length := by
    simp only [targetREl, List.length_zipWith, List.length_drop, List.length_dropLast, hlen]
    omega
  have hkd : k < i.dropLast.length := by simp [hlen]; omega
  rw [List.getD_eq_getElem _ _ hkt, List.getD_eq_getElem _ _ hk,
    List.getD_eq_getElem _ _ hki]
  simp only [targetREl, List.getElem_zipWith, List.getElem_drop, List.getElem_dropLast]
  simp only [Nat.add_comm 1 k]

/-- Witness for the amended C3 at a concrete 3-sample sweep, entry `k = 1`. -/
theorem claim_C3_design_two_columns_witness :
    (designRElMatrix [(0 : ℚ), 1, 2].dropLast).map List.length =
      List.replicate [(0 : ℚ), 1, 2].dropLast.length 2 ∧
    (designRElMatrix [(0 : ℚ), 1, 2].dropLast).map (fun r => r.getD 0 0) =
      [(0 : ℚ), 1, 2].dropLast ∧
    (designRElMatrix [(0 : ℚ), 1, 2].dropLast).map (fun r => r.getD 1 0) =
      List.replicate [(0 : ℚ), 1, 2].dropLast.length 1 ∧
    (targetREl [(0 : ℚ), 1, 2] [(5 : ℚ), 5, 5] 1 1).getD 1 0 =
      [(0 : ℚ), 1, 2].getD 2 0 - [(5 : ℚ), 5, 5].getD 1 0 * 1 / 1 ∧
    fitRElSweep [(0 : ℚ), 1, 2] [(5 : ℚ), 5, 5] 1 1 =
      (1 / (1 * (1 - (lstsq2 (designRElMatrix [(0 : ℚ), 1, 2].dropLast)
          (targetREl [(0 : ℚ), 1, 2] [(5 : ℚ), 5, 5] 1 1)).1)),
       1 * (1 / (1 * (1 - (lstsq2 (designRElMatrix [(0 : ℚ), 1, 2].dropLast)
           (targetREl [(0 : ℚ), 1, 2] [(5 : ℚ), 5, 5] 1 1)).1))) *
         (lstsq2 (designRElMatrix [(0 : ℚ), 1, 2].dropLast)
           (targetREl [(0 : ℚ), 1, 2] [(5 : ℚ), 5, 5] 1 1)).2 / 1) :=
  claim_C3_design_two_columns [(0 : ℚ), 1, 2] [(5 : ℚ), 5, 5] 1 1 1
    (by rfl) (by norm_num)

/-! ### Claim C4: mismatched sweep lengths are silently truncated in smooth -/

/-- Counterexample to C4 as stated: `smooth` on a voltage of length 3 and a
current of length 5 does not fail fast — it silently truncates the current to
`len(voltage)-1 = 2` samples and returns successfully. -/
theorem claim_C4_counterexample :
    [(0 : ℚ), 1, 2].length ≠ [(5 : ℚ), 6, 7, 8, 9].length ∧
    smooth [0, 1, 2] [5, 6, 7, 8, 9] 1 1 = .ok ([0, 1], [5, 6], [1, 1]) := by
  constructor
  · decide
  · norm_num [smooth, filter_width, roundHalfEven, Int.fract, round_eq, Int.toNat_ofNat,
      convSame, convFull, boxKernel, padGet, List.range_succ]

/-- C4 as amended: on a sweep whose current series is at least
`len(voltage)-1` samples long, `smooth` uses only the first `len(voltage)-1`
current samples — a silent truncation — and returns without error; there is
no fail-fast length check. -/
theorem claim_C4_smooth_silently_truncates (v i : List ℚ) (fs dt : ℚ)
    (h2 : 2 ≤ v.length) (hi : v.length - 1 ≤ i.length)
    (hw : 1 ≤ filter_width fs dt) :
    smooth v i fs dt = smooth v (i.take (v.length - 1)) fs dt ∧
    exceptOk (smooth v i fs dt) = true := by
  have hw0 : filter_width fs dt ≠ 0 := by omega
  constructor
  · simp [smooth, List.take_take]
  · have hv0 : (v.take (v.length - 1)).length ≠ 0 := by
      simp only [List.length_take]
      omega
    have hi0 : (i.take (v.length - 1)).length ≠ 0 := by
      simp only [List.length_take]
      omega
    simp only [smooth, if_neg hw0, if_neg hv0, if_neg hi0]
    rfl

/-- Witness for the amended C4: voltage of length 3, current of length 5. -/
theorem claim_C4_smooth_silently_truncates_witness :
    smooth [(0 : ℚ), 1, 2] [(5 : ℚ), 6, 7, 8, 9] 1 1 =
      smooth [(0 : ℚ), 1, 2] ([(5 : ℚ), 6, 7, 8, 9].take ([(0 : ℚ), 1, 2].length - 1)) 1 1 ∧
    exceptOk (smooth [(0 : ℚ), 1, 2] [(5 : ℚ), 6, 7, 8, 9] 1 1) = true :=
  claim_C4_smooth_silently_truncates [(0 : ℚ), 1, 2] [(5 : ℚ), 6, 7, 8, 9] 1 1
    (by norm_num) (by norm_num)
    (by norm_num [filter_width, roundHalfEven, Int.fract, round_eq, Int.toNat_ofNat])

/-! ### Claim C5: degenerate filter width -/

/-- Counterexample to C5 as stated: with `filter_size_s/dt = 0.4` the filter
width rounds to zero, and `smooth` reports the generic empty-kernel
convolution failure (numpy's error inside `np.convolve`, raised after the
`sq_filt/len(sq_filt)` normalization), not a descriptive
degenerate-filter-width error raised by a width check. -/
theorem claim_C5_counterexample :
    filter_width 2 5 = 0 ∧
    smooth [0, 1, 2] [0, 0, 0] 2 5 = .error .emptyKernel ∧
    RcErr.emptyKernel ≠ RcErr.degenerateWidth := by
  refine ⟨?_, ?_, by decide⟩
  · norm_num [filter_width, roundHalfEven, Int.fract, round_eq, Int.toNat_ofNat]
  · norm_num [smooth, filter_width, roundHalfEven, Int.fract, round_eq, Int.toNat_ofNat]

/-- C5 as amended: whenever the computed filter width rounds to zero,
`smooth` fails — but with the downstream generic empty-kernel convolution
error; the source has no width check producing a descriptive error. -/
theorem claim_C5_degenerate_width_generic_error (v i : List ℚ) (fs dt : ℚ)
    (hw : filter_width fs dt = 0) :
    smooth v i fs dt = .error .emptyKernel := by
  simp [smooth, hw]

/-- Witness for the amended C5: `filter_size_s/dt = 1/3` rounds to width 0. -/
theorem claim_C5_degenerate_width_generic_error_witness :
    smooth [(1 : ℚ), 1] [(2 : ℚ), 2] 1 3 = .error .emptyKernel :=
  claim_C5_degenerate_width_generic_error [(1 : ℚ), 1] [(2 : ℚ), 2] 1 3
    (by norm_num [filter_width, roundHalfEven, Int.fract, round_eq, Int.toNat_ofNat])

/-! ### Convolution lemmas for claims C6 and C7 -/

theorem sum_map_mul {α : Type} (c : ℚ) (l : List α) (f : α → ℚ) :
    (l.map fun x => c * f x).sum = c * (l.map f).sum := by
  induction l with
  | nil => simp
  | cons a l ih => simp [ih]; ring

theorem zipWith_map_same {α β : Type} (f : ℚ → ℚ → β) (g h : α → ℚ) :
    ∀ l : List α, List.zipWith f (l.map g) (l.map h) = l.map fun x => f (g x) (h x) := by
  intro l
  induction l with
  | nil => rfl
  | cons a l ih => simp only [List.map_cons, List.zipWith_cons_cons, ih]

theorem convFull_length (a k : List ℚ) :
    (convFull a k).length = a.length + k.length - 1 := by
  rw [convFull, List.length_map, List.length_range]

/-- The `'same'`-mode box filter of width `1 ≤ w ≤ |a|` has the same length
as `a` and its entries are the normalized zero-padded window sums `boxZ`. -/
theorem convSame_box (a : List ℚ) (w : ℕ) (hw1 : 1 ≤ w) (hw2 : w ≤ a.length) :
    convSame a (boxKernel w) = (List.range a.length).map (boxZ a w) := by
  have hkl : (boxKernel w).length = w := by simp [boxKernel]
  have hmin : min a.length (boxKernel w).length = w := by
    rw [hkl]; omega
  have hmax : max a.length (boxKernel w).length = a.length := by
    rw [hkl]; omega
  have hfl : (convFull a (boxKernel w)).length = a.length + w - 1 := by
    rw [convFull_length, hkl]
  apply List.ext_getElem
  · simp only [convSame, List.length_take, List.length_drop, hmin, hmax, hfl,
      List.length_map, List.length_range]
    omega
  · intro j h1 h2
    have hj : j < a.length := by simpa using h2
    have hdl : j < ((convFull a (boxKernel w)).drop ((w - 1) / 2)).length := by
      simp only [List.length_drop, hfl]
      omega
    have hsj : (w - 1) / 2 + j < (convFull a (boxKernel w)).length := by
      rw [hfl]; omega
    simp only [convSame, hmin, hmax, List.getElem_take, List.getElem_drop]
    have hsj' : (w - 1) / 2 + j < a.length + (boxKernel w).length - 1 := by
      rw [hkl]; omega
    simp only [convFull, List.getElem_map, List.getElem_range, List.length_range]
    rw [hkl]
    have hcong : ∀ t ∈ List.range w,
        (boxKernel w).getD t 0 * padGet a ((((w - 1) / 2 + j : ℕ) : ℤ) - t) =
          (1 / (w : ℚ)) * padGet a ((j : ℤ) + ((w - 1) / 2 : ℕ) - t) := by
      intro t ht
      rw [List.mem_range] at ht
      have hg : (boxKernel w).getD t 0 = 1 / (w : ℚ) := by
        rw [List.getD_eq_getElem _ _ (by simp [boxKernel, ht])]
        simp [boxKernel]
      have harg : ((((w - 1) / 2 + j : ℕ) : ℤ) - (t : ℤ)) =
          ((j : ℤ) + (((w - 1) / 2 : ℕ) : ℤ) - (t : ℤ)) := by
        rw [Nat.cast_add]
        ring
      rw [hg, harg]
    rw [List.map_congr_left hcong, sum_map_mul, boxZ, one_div_mul_eq_div]

/-- A width-1 box filter in `'same'` mode is the identity. -/
theorem convSame_one (a : List ℚ) (ha : a ≠ []) : convSame a (boxKernel 1) = a := by
  have h1 : 1 ≤ a.length := List.length_pos.mpr ha
  rw [convSame_box a 1 (le_refl 1) h1]
  apply List.ext_getElem
  · simp
  · intro j hj hj'
    simp only [List.getElem_map, List.getElem_range]
    rw [boxZ]
    simp only [List.range_succ, List.range_zero, List.nil_append, List.map_cons,
      List.map_nil, List.sum_cons, List.sum_nil, padGet, Nat.cast_zero, Nat.cast_one,
      Nat.sub_self, Nat.zero_div, add_zero, sub_zero, add_zero]
    rw [if_pos (Int.natCast_nonneg j), Int.toNat_natCast,
      List.getD_eq_getElem _ _ hj']
    norm_num

/-- The filter width is exactly one sample when `filter_size_s = dt ≠ 0`. -/
theorem filter_width_self (dt : ℚ) (hdt : dt ≠ 0) : filter_width dt dt = 1 := by
  rw [filter_width, div_self hdt]
  norm_num [roundHalfEven, Int.fract, round_eq, Int.toNat_ofNat]

/-! ### Claim C7: filter width 1 is a no-op -/

/-- C7: with `filter_size_s = dt` (filter width 1 sample), `smooth` is a
no-op convolution: it returns the truncated voltage `voltage[0..n-2]`, the
truncated current `current[0..n-2]`, and the unsmoothed one-step difference
of the voltage divided by `dt`. -/
theorem claim_C7_width_one_identity (v i : List ℚ) (dt : ℚ) (hdt : dt ≠ 0)
    (hlen : i.length = v.length) (h2 : 2 ≤ v.length) :
    smooth v i dt dt = .ok (v.take (v.length - 1), i.take (v.length - 1),
      List.zipWith (fun a b => (a - b) / dt) (v.drop 1) (v.take (v.length - 1))) := by
  have hw := filter_width_self dt hdt
  have hv0 : (v.take (v.length - 1)).length ≠ 0 := by
    simp only [List.length_take]
    omega
  have hi0 : (i.take (v.length - 1)).length ≠ 0 := by
    simp only [List.length_take]
    omega
  have hvne : v.take (v.length - 1) ≠ [] := by
    intro hc; apply hv0; rw [hc]; rfl
  have hine : i.take (v.length - 1) ≠ [] := by
    intro hc; apply hi0; rw [hc]; rfl
  have hsne : v.drop 1 ≠ [] := by
    intro hc
    have := congrArg List.length hc
    simp only [List.length_drop, List.length_nil] at this
    omega
  simp only [smooth, hw, if_neg (by omega : ¬ (1 : ℕ) = 0), if_neg hv0, if_neg hi0,
    convSame_one _ hvne, convSame_one _ hine, convSame_one _ hsne]

/-- Witness for C7 on a concrete 3-sample sweep. -/
theorem claim_C7_width_one_identity_witness :
    smooth [(0 : ℚ), 1, 3] [(7 : ℚ), 8, 9] 1 1 =
      .ok ([(0 : ℚ), 1, 3].take ([(0 : ℚ), 1, 3].length - 1),
        [(7 : ℚ), 8, 9].take ([(0 : ℚ), 1, 3].length - 1),
        List.zipWith (fun a b => (a - b) / 1) ([(0 : ℚ), 1, 3].drop 1)
          ([(0 : ℚ), 1, 3].take ([(0 : ℚ), 1, 3].length - 1))) :=
  claim_C7_width_one_identity [(0 : ℚ), 1, 3] [(7 : ℚ), 8, 9] 1
    (by norm_num) (by rfl) (by norm_num)

/-! ### Claim C6: the smoothed sequences and their lengths -/

/-- Counterexample to C6 as stated: with voltage length `n = 2` and filter
width 2 (`> n-1`), `'same'`-mode convolution returns `max(M, N) = 2` samples,
so the smoothed sequences have length 2, not `n - 1 = 1`. -/
theorem claim_C6_counterexample :
    filter_width 2 1 = 2 ∧
    smooth [(1 : ℚ), 2] [(1 : ℚ), 1] 2 1 =
      .ok ([1/2, 1/2], [1/2, 1/2], [1/2, 1/2]) ∧
    ([(1 : ℚ)/2, 1/2] : List ℚ).length ≠ [(1 : ℚ), 2].length - 1 := by
  refine ⟨?_, ?_, by decide⟩
  · norm_num [filter_width, roundHalfEven, Int.fract, round_eq,
      show Int.toNat 2 = 2 from rfl]
  · norm_num [smooth, filter_width, roundHalfEven, Int.fract, round_eq,
      show Int.toNat 2 = 2 from rfl,
      convSame, convFull, boxKernel, padGet, List.range_succ]

/-- C6 as amended: for equal-length series with `n = len(voltage) ≥ 2` and a
filter width `w` with `1 ≤ w ≤ n-1`, `smooth` returns three sequences of
length `n-1`: the `'same'`-mode zero-padded box filters (uniform weights
`1/w`) of the truncated voltage and truncated current, and the elementwise
difference of the box-filtered shifted and truncated voltage divided by
`dt`.  (For `w > n-1` the sequences have length `w` instead: see the
counterexample.) -/
theorem claim_C6_smooth_box_values (v i : List ℚ) (fs dt : ℚ)
    (hlen : i.length = v.length) (h2 : 2 ≤ v.length)
    (hw1 : 1 ≤ filter_width fs dt) (hw2 : filter_width fs dt ≤ v.length - 1) :
    smooth v i fs dt = .ok
      ((List.range (v.length - 1)).map (boxZ (v.take (v.length - 1)) (filter_width fs dt)),
       (List.range (v.length - 1)).map (boxZ (i.take (v.length - 1)) (filter_width fs dt)),
       (List.range (v.length - 1)).map fun j =>
         (boxZ (v.drop 1) (filter_width fs dt) j -
           boxZ (v.take (v.length - 1)) (filter_width fs dt) j) / dt) := by
  have hw0 : filter_width fs dt ≠ 0 := by omega
  have hlv : (v.take (v.length - 1)).length = v.length - 1 := by
    simp only [List.length_take]
    omega
  have hli : (i.take (v.length - 1)).length = v.length - 1 := by
    simp only [List.length_take]
    omega
  have hls : (v.drop 1).length = v.length - 1 := by
    simp only [List.length_drop]
  have hv0 : (v.take (v.length - 1)).length ≠ 0 := by omega
  have hi0 : (i.take (v.length - 1)).length ≠ 0 := by omega
  have hcv := convSame_box (v.take (v.length - 1)) (filter_width fs dt) hw1 (by omega)
  have hci := convSame_box (i.take (v.length - 1)) (filter_width fs dt) hw1 (by omega)
  have hcs := convSame_box (v.drop 1) (filter_width fs dt) hw1 (by omega)
  rw [hlv] at hcv
  rw [hli] at hci
  rw [hls] at hcs
  simp only [smooth, if_neg hw0, if_neg hv0, if_neg hi0, hcv, hci, hcs,
    zipWith_map_same]

/-- Witness for the amended C6: 4 samples, filter width 2. -/
theorem claim_C6_smooth_box_values_witness :
    smooth [(0 : ℚ), 1, 2, 3] [(1 : ℚ), 1, 1, 1] 2 1 = .ok
      ((List.range ([(0 : ℚ), 1, 2, 3].length - 1)).map
        (boxZ ([(0 : ℚ), 1, 2, 3].take ([(0 : ℚ), 1, 2, 3].length - 1)) (filter_width 2 1)),
       (List.range ([(0 : ℚ), 1, 2, 3].length - 1)).map
        (boxZ ([(1 : ℚ), 1, 1, 1].take ([(0 : ℚ), 1, 2, 3].length - 1)) (filter_width 2 1)),
       (List.range ([(0 : ℚ), 1, 2, 3].length - 1)).map fun j =>
         (boxZ ([(0 : ℚ), 1, 2, 3].drop 1) (filter_width 2 1) j -
           boxZ ([(0 : ℚ), 1, 2, 3].take ([(0 : ℚ), 1, 2, 3].length - 1))
             (filter_width 2 1) j) / 1) :=
  claim_C6_smooth_box_values [(0 : ℚ), 1, 2, 3] [(1 : ℚ), 1, 1, 1] 2 1
    (by rfl) (by norm_num)
    (by norm_num [filter_width, roundHalfEven, Int.fract, round_eq,
      show Int.toNat 2 = 2 from rfl])
    (by norm_num [filter_width, roundHalfEven, Int.fract, round_eq,
      show Int.toNat 2 = 2 from rfl])

end RcFit
